import Mathlib

/-!
Shallow embedding of the Promises/A+ implementation in
`src/PromiseAPLus.ts` together with the ES6 convenience layer in
`src/ES6/MyPromise.ts`.

Modelling choices:

* The JavaScript heap of promise objects is a `List PromiseObj`; a promise
  reference is its index.  `getP`/`setP` look a promise up with a default
  blank object, so every operation is total (JS references are always
  valid; theorems that need a valid reference carry `p < m.heap.length`).
* Dynamic JS values are the inductive `Value`.  The source's resolution
  procedure distinguishes: the promise itself, an instance of the promise
  family (`Value.promiseRef`), an object-or-function (`Value.obj`, which
  carries the observable behaviour of its `then` property: the property
  read may throw, may yield a non-callable value, or a callable whose
  synchronous behaviour is a list of calls to the two generated callbacks
  followed by an optional throw), and everything else (primitives and
  arrays, which the source's `Array.isArray` test excludes from the
  thenable branch).
* `process.nextTick` is a FIFO task queue stored in the machine; running
  a scheduled callback is `runTask`, draining the queue is `runAll`.
  Executing a user handler appends an `Event.invoke` record to the
  machine's event log; reading a `then` property in the resolution
  procedure appends an `Event.thenRead` record.  The log is pure
  instrumentation: no operation of the model reads it.
* All state-mutating operations of the source form one mutually
  recursive family; recursion is bounded by an explicit fuel argument
  (out of fuel = the machine is returned unchanged).  Theorems either
  hold for every fuel or use a concretely sufficient fuel.
* `clearThenQueue` iterates over the snapshot of the queue taken at
  entry.  This matches the source's live-index loop because during the
  loop the drained promise is already settled, and the only synchronous
  queue writers reached from the loop body (`changeState` on a derived
  promise) are guarded by `state = pending`, hence never touch the
  drained promise's queue.
* User callbacks are modelled by `HFun`: either a pure function from the
  argument to a result-or-throw, or one of the specific closures that
  `MyPromise.all` / `MyPromise.race` install (those mutate the shared
  per-`all` cell, modelled in `Machine.cells`, and settle the aggregate
  promise).
-/

namespace PromiseSpec

/-- The three promise states of the source's `enum State`. -/
inductive PState where
  | pending
  | fulfilled
  | rejected
deriving DecidableEq, Repr

mutual
/-- Dynamic JS values as far as the resolution procedure can distinguish them. -/
inductive Value where
  | undef : Value
  | num : Int → Value
  | str : String → Value
  | arr : List Value → Value
  | promiseRef : Nat → Value
  | obj : ThenAccess → Value
  | typeError : String → Value

/-- Observable behaviour of reading and invoking the `then` property of an
object-or-function value. -/
inductive ThenAccess where
  | throws : Value → ThenAccess
  | notCallable : Value → ThenAccess
  | callable : List ScriptCall → Option Value → ThenAccess

/-- One synchronous call a foreign thenable makes to the generated callbacks:
`res y` invokes `resolvePromise(y)`, `rej r` invokes `rejectPromise(r)`. -/
inductive ScriptCall where
  | res : Value → ScriptCall
  | rej : Value → ScriptCall
end

/-- The source's `StateTransition`: target state plus payload. -/
structure StateTransition where
  state : PState
  payload : Value

/-- Code of a callable handler: a generic pure function, or one of the
closures installed by `MyPromise.all` / `MyPromise.race`. -/
inductive HFun where
  | pure (f : Value → Except Value Value)
  | allOnFulfilled (idx total np cell : Nat)
  | allOnRejected (np : Nat)
  | raceOnFulfilled (np : Nat)
  | raceOnRejected (np : Nat)

/-- A handler slot of a registration: a non-callable value (treated as
absent by `clearThenQueue`) or a function.  `hid` identifies the function
object in the event log. -/
inductive Handler where
  | notCallable (v : Value)
  | fn (hid : Nat) (code : HFun)

/-- Whether a handler passes the source's `typeof f === 'function'` test. -/
def Handler.isFn : Handler → Bool
  | .notCallable _ => false
  | .fn _ _ => true

/-- The source's `ThenObj`: one entry of a promise's `thenQueue`. -/
structure Registration where
  onFulfilled : Handler
  onRejected : Handler
  returnPromise : Nat
  isFinally : Bool

/-- One promise object: the `state`, `value`, `reason` and `thenQueue`
fields keyed by the source's private symbols. -/
structure PromiseObj where
  state : PState := .pending
  value : Value := .undef
  reason : Value := .undef
  thenQueue : List Registration := []

/-- A callback scheduled with `process.nextTick` by `clearThenQueue`:
the selected handler, the captured payload and settled state, the derived
promise and the finally flag of its registration. -/
structure Task where
  hid : Nat
  code : HFun
  payload : Value
  returnPromise : Nat
  isFinally : Bool
  settledState : PState

/-- Instrumentation events: a handler invocation, or a read of a `then`
property inside the resolution procedure. -/
inductive Event where
  | invoke (hid : Nat) (payload : Value)
  | thenRead (t : ThenAccess)

/-- The shared mutable state of one `MyPromise.all` call: the result
array (sparse, index-assigned) and the `finishedCount` counter. -/
structure AllCell where
  values : List (Option Value)
  finished : Nat

/-- The whole machine: promise heap, `process.nextTick` queue, event log
and the shared cells of `MyPromise.all` calls. -/
structure Machine where
  heap : List PromiseObj
  tasks : List Task
  log : List Event
  cells : List AllCell

/-- Look up a promise by reference (blank object when out of range). -/
def getP (m : Machine) (p : Nat) : PromiseObj :=
  m.heap.getD p {}

/-- Overwrite a promise object (no-op when out of range). -/
def setP (m : Machine) (p : Nat) (P : PromiseObj) : Machine :=
  { m with heap := m.heap.set p P }

/-- Append a registration to a promise's `thenQueue`. -/
def pushQueue (m : Machine) (p : Nat) (r : Registration) : Machine :=
  setP m p { getP m p with thenQueue := (getP m p).thenQueue ++ [r] }

/-- Replace a promise's `thenQueue`. -/
def setQueue (m : Machine) (p : Nat) (q : List Registration) : Machine :=
  setP m p { getP m p with thenQueue := q }

/-- Append a task to the `process.nextTick` FIFO queue. -/
def schedTask (m : Machine) (t : Task) : Machine :=
  { m with tasks := m.tasks ++ [t] }

/-- Append an instrumentation event. -/
def logEvent (m : Machine) (e : Event) : Machine :=
  { m with log := m.log ++ [e] }

/-- Allocate a fresh pending promise, returning its reference. -/
def freshP (m : Machine) : Machine × Nat :=
  ({ m with heap := m.heap ++ [{}] }, m.heap.length)

mutual

/-- The source's `changeState`: no-op unless pending, otherwise set the
state and the matching payload field, then drain the queue. -/
def changeState : Nat → Machine → Nat → StateTransition → Machine
  | 0, m, _, _ => m
  | f + 1, m, p, t =>
    if (getP m p).state ≠ PState.pending then m
    else
      let m1 :=
        if t.state = PState.fulfilled then
          setP m p { getP m p with state := t.state, value := t.payload }
        else
          setP m p { getP m p with state := t.state, reason := t.payload }
      clearThenQueue f m1 p

/-- The source's `toFulfilledState`. -/
def toFulfilledState : Nat → Machine → Nat → Value → Machine
  | 0, m, _, _ => m
  | f + 1, m, p, v => changeState f m p ⟨PState.fulfilled, v⟩

/-- The source's `toRejectedState`. -/
def toRejectedState : Nat → Machine → Nat → Value → Machine
  | 0, m, _, _ => m
  | f + 1, m, p, r => changeState f m p ⟨PState.rejected, r⟩

/-- The source's `clearThenQueue`: no-op while pending; otherwise process
every queued registration against the settled state and payload, then
clear the queue. -/
def clearThenQueue : Nat → Machine → Nat → Machine
  | 0, m, _ => m
  | f + 1, m, p =>
    let st := (getP m p).state
    if st = PState.pending then m
    else
      let payload := if st = PState.fulfilled then (getP m p).value else (getP m p).reason
      let m1 := drainEntries f m (getP m p).thenQueue st payload
      setQueue m1 p []

/-- The loop body of `clearThenQueue`: for a callable selected handler,
schedule the deferred callback; otherwise propagate state and payload to
the derived promise synchronously via `changeState`. -/
def drainEntries : Nat → Machine → List Registration → PState → Value → Machine
  | 0, m, _, _, _ => m
  | _ + 1, m, [], _, _ => m
  | f + 1, m, e :: rest, st, payload =>
    let h := if st = PState.fulfilled then e.onFulfilled else e.onRejected
    let m1 :=
      match h with
      | .fn hid code =>
        schedTask m
          { hid := hid, code := code, payload := payload,
            returnPromise := e.returnPromise, isFinally := e.isFinally,
            settledState := st }
      | .notCallable _ => changeState f m e.returnPromise ⟨st, payload⟩
    drainEntries f m1 rest st payload

/-- The source's `_resolve`: the Promises/A+ resolution procedure.
Branches, in source order: the promise itself (cycle), an instance of the
promise family, an object-or-function (read `then` once, then reject on a
throwing read, adopt a callable `then`, or fulfil with the value itself),
and plain values. -/
def resolveP : Nat → Machine → Nat → Value → Machine
  | 0, m, _, _ => m
  | f + 1, m, promise, x =>
    match x with
    | Value.promiseRef r =>
      if r = promise then
        toRejectedState f m promise
          (Value.typeError "Chaining cycle detected for promise #<PromiseAPLus>")
      else
        let m1 := pushQueue m r
          { onFulfilled := Handler.notCallable Value.undef,
            onRejected := Handler.notCallable Value.undef,
            returnPromise := promise, isFinally := false }
        clearThenQueue f m1 r
    | Value.obj ta =>
      let m1 := logEvent m (Event.thenRead ta)
      match ta with
      | ThenAccess.throws e => toRejectedState f m1 promise e
      | ThenAccess.notCallable _ => toFulfilledState f m1 promise x
      | ThenAccess.callable calls thrown =>
        let mf := runScriptCalls f m1 promise calls false
        match thrown with
        | some e => if mf.2 then mf.1 else toRejectedState f mf.1 promise e
        | none => mf.1
    | _ => toFulfilledState f m promise x

/-- Execution of the synchronous calls a foreign thenable makes to the
two generated callbacks, threading the shared `calledFlag`: a callback
body runs only while the flag is unset, and either callback sets the flag
after its body. -/
def runScriptCalls : Nat → Machine → Nat → List ScriptCall → Bool → Machine × Bool
  | 0, m, _, _, flag => (m, flag)
  | _ + 1, m, _, [], flag => (m, flag)
  | f + 1, m, p, c :: rest, flag =>
    let m1 :=
      if flag then m
      else
        match c with
        | ScriptCall.res y => resolveP f m p y
        | ScriptCall.rej r => toRejectedState f m p r
    runScriptCalls f m1 p rest true

end

/-- Look up an `all` cell (blank when out of range). -/
def getCell (m : Machine) (c : Nat) : AllCell :=
  m.cells.getD c ⟨[], 0⟩

/-- Overwrite an `all` cell (no-op when out of range). -/
def setCell (m : Machine) (c : Nat) (v : AllCell) : Machine :=
  { m with cells := m.cells.set c v }

/-- The result array of an `all` cell as a JS array value (unassigned
slots read as `undefined`, as in a sparse JS array). -/
def cellArr (cl : AllCell) : Value :=
  Value.arr (cl.values.map (fun o => o.getD Value.undef))

/-- Run the body of a callable handler.  A `pure` handler returns its
result or throw; the `all` / `race` closures perform their effects on the
machine and return `undefined` normally. -/
def runHFun (f : Nat) (m : Machine) (code : HFun) (v : Value) :
    Machine × Except Value Value :=
  match code with
  | HFun.pure fn => (m, fn v)
  | HFun.allOnFulfilled idx total np cell =>
    let cl := getCell m cell
    let m1 := setCell m cell ⟨cl.values.set idx (some v), cl.finished + 1⟩
    let m2 :=
      if (getCell m1 cell).finished = total then
        resolveP f m1 np (cellArr (getCell m1 cell))
      else m1
    (m2, Except.ok Value.undef)
  | HFun.allOnRejected np => (toRejectedState f m np v, Except.ok Value.undef)
  | HFun.raceOnFulfilled np => (resolveP f m np v, Except.ok Value.undef)
  | HFun.raceOnRejected np => (toRejectedState f m np v, Except.ok Value.undef)

/-- Run one scheduled callback (the closure passed to `process.nextTick`
inside `clearThenQueue`): invoke the handler with the captured payload;
a throw rejects the derived promise; a normal result is routed through
the resolution procedure, except that a finally-flagged registration
propagates the captured state and payload unchanged instead. -/
def runTask (f : Nat) (m : Machine) (t : Task) : Machine :=
  let m1 := logEvent m (Event.invoke t.hid t.payload)
  match runHFun f m1 t.code t.payload with
  | (m2, Except.error e) => toRejectedState f m2 t.returnPromise e
  | (m2, Except.ok x) =>
    if t.isFinally then
      changeState f m2 t.returnPromise ⟨t.settledState, t.payload⟩
    else
      resolveP f m2 t.returnPromise x

/-- Drain the `process.nextTick` queue FIFO, running up to `g` tasks,
each with inner fuel `f`. -/
def runAll : Nat → Nat → Machine → Machine
  | 0, _, m => m
  | g + 1, f, m =>
    match m.tasks with
    | [] => m
    | t :: rest => runAll g f (runTask f { m with tasks := rest } t)

/-- The source's `then`: allocate the derived promise, append the
registration (with the finally flag when set), attempt drainage, and
return the derived promise. -/
def thenAttach (f : Nat) (m : Machine) (p : Nat)
    (onFulfilled onRejected : Handler) (isFinally : Bool) : Machine × Nat :=
  let fr := freshP m
  let m2 := pushQueue fr.1 p
    { onFulfilled := onFulfilled, onRejected := onRejected,
      returnPromise := fr.2, isFinally := isFinally }
  (clearThenQueue f m2 p, fr.2)

/-- The source's `MyPromise.resolve`: a fresh promise run through the
resolution procedure against the given value. -/
def myResolve (f : Nat) (m : Machine) (v : Value) : Machine × Nat :=
  let fr := freshP m
  (resolveP f fr.1 fr.2 v, fr.2)

/-- The `forEach` loop of `MyPromise.all`: each item is normalised with
`MyPromise.resolve` and observed with the two `all` closures. -/
def allLoop (f : Nat) (m : Machine) (items : List Value)
    (idx total np cell : Nat) : Machine :=
  match items with
  | [] => m
  | it :: rest =>
    let r := myResolve f m it
    let a := thenAttach f r.1 r.2
      (Handler.fn 0 (HFun.allOnFulfilled idx total np cell))
      (Handler.fn 0 (HFun.allOnRejected np)) false
    allLoop f a.1 rest (idx + 1) total np cell

/-- The source's `MyPromise.all`: fresh aggregate promise, shared result
array and counter, the eager `finishedCount === promisesArray.length`
check (which fires exactly for empty input), then the per-item loop. -/
def myAll (f : Nat) (m : Machine) (items : List Value) : Machine × Nat :=
  let fr := freshP m
  let cell := fr.1.cells.length
  let m2 := { fr.1 with cells := fr.1.cells ++ [⟨List.replicate items.length none, 0⟩] }
  let m3 :=
    if 0 = items.length then resolveP f m2 fr.2 (cellArr (getCell m2 cell))
    else m2
  (allLoop f m3 items 0 items.length fr.2 cell, fr.2)

/-- The `forEach` loop of `MyPromise.race`. -/
def raceLoop (f : Nat) (m : Machine) (items : List Value) (np : Nat) : Machine :=
  match items with
  | [] => m
  | it :: rest =>
    let r := myResolve f m it
    let a := thenAttach f r.1 r.2
      (Handler.fn 0 (HFun.raceOnFulfilled np))
      (Handler.fn 0 (HFun.raceOnRejected np)) false
    raceLoop f a.1 rest np

/-- The source's `MyPromise.race`: fresh aggregate promise, then the
per-item loop; no other operation touches the aggregate. -/
def myRace (f : Nat) (m : Machine) (items : List Value) : Machine × Nat :=
  let fr := freshP m
  (raceLoop f fr.1 items fr.2, fr.2)

/-- The handler-invocation records of an event log, in order. -/
def invokes (l : List Event) : List (Nat × Value) :=
  l.filterMap (fun e =>
    match e with
    | Event.invoke h p => some (h, p)
    | _ => none)

/-- A registration neither of whose handler slots is callable. -/
def Registration.inert (r : Registration) : Prop :=
  r.onFulfilled.isFn = false ∧ r.onRejected.isFn = false

/-- No queued registration anywhere in the heap has a callable handler:
draining any queue can then schedule no task. -/
def CallableFree (m : Machine) : Prop :=
  ∀ P ∈ m.heap, ∀ r ∈ P.thenQueue, r.inert

/-- Settled promises keep their `state`, `value` and `reason` fields. -/
def Frozen (m m' : Machine) : Prop :=
  ∀ q, (getP m q).state ≠ PState.pending →
    (getP m' q).state = (getP m q).state ∧
    (getP m' q).value = (getP m q).value ∧
    (getP m' q).reason = (getP m q).reason

/-- The machine with empty heap, task queue, log and cell store. -/
def emptyMachine : Machine := ⟨[], [], [], []⟩

/-- One finally-flagged registration, end to end: a fresh promise gets a
finally-style `then` with the same handler in both slots, is settled
with state `s` and payload `w`, and the single scheduled task is run. -/
def finallyScenario (h : Nat) (code : Value → Except Value Value)
    (w : Value) (s : PState) : Machine :=
  runAll 1 10 (changeState 10 (thenAttach 10 (freshP emptyMachine).1 0
    (Handler.fn h (HFun.pure code)) (Handler.fn h (HFun.pure code)) true).1 0
    ⟨s, w⟩)

/-- Three handlers attached to one fresh pending promise in order A, B,
C, then the promise is fulfilled with `v` and the scheduled tasks run. -/
def orderingAttachFirst (a b c : Nat) (ca cb cc : Value → Except Value Value)
    (hrA hrB hrC : Handler) (v : Value) (f : Nat) : Machine :=
  runAll 3 f (changeState 10
    (thenAttach 10 (thenAttach 10 (thenAttach 10 (freshP emptyMachine).1 0
        (Handler.fn a (HFun.pure ca)) hrA false).1 0
        (Handler.fn b (HFun.pure cb)) hrB false).1 0
        (Handler.fn c (HFun.pure cc)) hrC false).1 0
    ⟨PState.fulfilled, v⟩)

/-- Three handlers attached in order A, B, C to a promise that was
already fulfilled with `v`, then the scheduled tasks run. -/
def orderingSettleFirst (a b c : Nat) (ca cb cc : Value → Except Value Value)
    (hrA hrB hrC : Handler) (v : Value) (f : Nat) : Machine :=
  runAll 3 f (thenAttach 10 (thenAttach 10 (thenAttach 10
      (changeState 10 (freshP emptyMachine).1 0 ⟨PState.fulfilled, v⟩) 0
      (Handler.fn a (HFun.pure ca)) hrA false).1 0
      (Handler.fn b (HFun.pure cb)) hrB false).1 0
      (Handler.fn c (HFun.pure cc)) hrC false).1

theorem getP_setP_self (m : Machine) (p : Nat) (P : PromiseObj)
    (hp : p < m.heap.length) : getP (setP m p P) p = P := by
  simp [getP, setP, List.getD, List.getElem?_set_self, hp]

theorem getP_setP_ne (m : Machine) (p q : Nat) (P : PromiseObj)
    (h : p ≠ q) : getP (setP m p P) q = getP m q := by
  simp [getP, setP, List.getD, List.getElem?_set_ne h]

theorem heapLen_setP (m : Machine) (p : Nat) (P : PromiseObj) :
    (setP m p P).heap.length = m.heap.length := by
  simp [setP]

theorem getP_fresh_self (m : Machine) :
    getP (freshP m).1 (freshP m).2 = {} := by
  simp [getP, freshP, List.getD]

theorem getP_fresh_old (m : Machine) (p : Nat) (hp : p < m.heap.length) :
    getP (freshP m).1 p = getP m p := by
  simp [getP, freshP, List.getD, List.getElem?_append_left hp]

theorem Frozen.refl (m : Machine) : Frozen m m := fun _ _ => ⟨rfl, rfl, rfl⟩

theorem Frozen.trans {a b c : Machine} (h1 : Frozen a b) (h2 : Frozen b c) :
    Frozen a c := by
  intro q hq
  obtain ⟨s1, v1, r1⟩ := h1 q hq
  obtain ⟨s2, v2, r2⟩ := h2 q (by rw [s1]; exact hq)
  exact ⟨s2.trans s1, v2.trans v1, r2.trans r1⟩

theorem Frozen.heapOnly {m m' : Machine} (h : m'.heap = m.heap) : Frozen m m' := by
  intro q _
  simp [getP, h]

theorem frozen_setP_pending {m : Machine} {p : Nat} (P : PromiseObj)
    (hp : (getP m p).state = PState.pending) : Frozen m (setP m p P) := by
  intro q hq
  by_cases h : p = q
  · subst h; exact absurd hp hq
  · rw [getP_setP_ne m p q P h]
    exact ⟨rfl, rfl, rfl⟩

theorem frozen_setP_fields {m : Machine} {p : Nat} (P : PromiseObj)
    (hs : P.state = (getP m p).state) (hv : P.value = (getP m p).value)
    (hr : P.reason = (getP m p).reason) : Frozen m (setP m p P) := by
  intro q _
  by_cases h : p = q
  · subst h
    by_cases hl : p < m.heap.length
    · rw [getP_setP_self m p P hl]; exact ⟨hs, hv, hr⟩
    · rw [show setP m p P = { m with heap := m.heap } from by
        simp [setP, List.set_eq_of_length_le (Nat.le_of_not_lt hl)]]
      exact ⟨rfl, rfl, rfl⟩
  · rw [getP_setP_ne m p q P h]
    exact ⟨rfl, rfl, rfl⟩

theorem frozen_pushQueue (m : Machine) (p : Nat) (r : Registration) :
    Frozen m (pushQueue m p r) :=
  frozen_setP_fields _ rfl rfl rfl

theorem frozen_setQueue (m : Machine) (p : Nat) (q : List Registration) :
    Frozen m (setQueue m p q) :=
  frozen_setP_fields _ rfl rfl rfl

/-- Settled promises are frozen across every operation of the core
mutual family, for every fuel. -/
theorem frozenAll : ∀ f : Nat,
    (∀ m p t, Frozen m (changeState f m p t)) ∧
    (∀ m p v, Frozen m (toFulfilledState f m p v)) ∧
    (∀ m p v, Frozen m (toRejectedState f m p v)) ∧
    (∀ m p, Frozen m (clearThenQueue f m p)) ∧
    (∀ m es st pl, Frozen m (drainEntries f m es st pl)) ∧
    (∀ m p x, Frozen m (resolveP f m p x)) ∧
    (∀ m p cs fl, Frozen m (runScriptCalls f m p cs fl).1)
  | 0 => by
    refine ⟨?_, ?_, ?_, ?_, ?_, ?_, ?_⟩ <;> intros <;>
      simp only [changeState, toFulfilledState, toRejectedState, clearThenQueue,
        drainEntries, resolveP, runScriptCalls] <;> exact Frozen.refl _
  | f + 1 => by
    obtain ⟨ihC, ihF, ihR, ihQ, ihD, ihV, ihS⟩ := frozenAll f
    refine ⟨?_, ?_, ?_, ?_, ?_, ?_, ?_⟩
    · intro m p t
      rw [changeState]
      split
      · exact Frozen.refl m
      · rename_i hpend
        refine Frozen.trans ?_ (ihQ _ _)
        have hp : (getP m p).state = PState.pending := by
          by_contra hc; exact hpend hc
        split <;> exact frozen_setP_pending _ hp
    · intro m p v
      rw [toFulfilledState]; exact ihC _ _ _
    · intro m p v
      rw [toRejectedState]; exact ihC _ _ _
    · intro m p
      rw [clearThenQueue]
      split
      · exact Frozen.refl m
      · exact Frozen.trans (ihD _ _ _ _) (frozen_setQueue _ _ _)
    · intro m es st pl
      match es with
      | [] => rw [drainEntries]; exact Frozen.refl m
      | e :: rest =>
        rw [drainEntries]
        refine Frozen.trans ?_ (ihD _ _ _ _)
        split
        · exact Frozen.heapOnly rfl
        · exact ihC _ _ _
    · intro m p x
      cases x with
      | promiseRef r =>
        simp only [resolveP]
        split
        · exact ihR _ _ _
        · exact Frozen.trans (frozen_pushQueue _ _ _) (ihQ _ _)
      | obj ta =>
        have hlog : Frozen m (logEvent m (Event.thenRead ta)) := Frozen.heapOnly rfl
        cases ta with
        | throws e => exact Frozen.trans hlog (by simp only [resolveP]; exact ihR _ _ _)
        | notCallable v => exact Frozen.trans hlog (by simp only [resolveP]; exact ihF _ _ _)
        | callable calls thrown =>
          have hs := Frozen.trans hlog
            (ihS (logEvent m (Event.thenRead (ThenAccess.callable calls thrown))) p calls false)
          cases thrown with
          | some e =>
            simp only [resolveP]
            split
            · exact hs
            · exact Frozen.trans hs (ihR _ _ _)
          | none => simp only [resolveP]; exact hs
      | undef => simp only [resolveP]; exact ihF _ _ _
      | num n => simp only [resolveP]; exact ihF _ _ _
      | str s => simp only [resolveP]; exact ihF _ _ _
      | arr vs => simp only [resolveP]; exact ihF _ _ _
      | typeError s => simp only [resolveP]; exact ihF _ _ _
    · intro m p cs fl
      cases cs with
      | nil => simp only [runScriptCalls]; exact Frozen.refl m
      | cons c rest =>
        simp only [runScriptCalls]
        refine Frozen.trans ?_ (ihS _ _ _ _)
        split
        · exact Frozen.refl m
        · split <;> first | exact ihV _ _ _ | exact ihR _ _ _

/-- The settlement and drainage operations never touch the event log:
no handler is invoked and no `then` property is read there. -/
theorem logAll : ∀ f : Nat,
    (∀ m p t, (changeState f m p t).log = m.log) ∧
    (∀ m p v, (toFulfilledState f m p v).log = m.log) ∧
    (∀ m p v, (toRejectedState f m p v).log = m.log) ∧
    (∀ m p, (clearThenQueue f m p).log = m.log) ∧
    (∀ m es st pl, (drainEntries f m es st pl).log = m.log)
  | 0 => by
    refine ⟨?_, ?_, ?_, ?_, ?_⟩ <;> intros <;>
      simp only [changeState, toFulfilledState, toRejectedState, clearThenQueue,
        drainEntries]
  | f + 1 => by
    obtain ⟨ihC, ihF, ihR, ihQ, ihD⟩ := logAll f
    refine ⟨?_, ?_, ?_, ?_, ?_⟩
    · intro m p t
      rw [changeState]
      split
      · rfl
      · rw [ihQ]
        split <;> rfl
    · intro m p v
      rw [toFulfilledState]; exact ihC _ _ _
    · intro m p v
      rw [toRejectedState]; exact ihC _ _ _
    · intro m p
      rw [clearThenQueue]
      split
      · rfl
      · rw [show ∀ mm pp q, (setQueue mm pp q).log = mm.log from fun _ _ _ => rfl, ihD]
    · intro m es st pl
      match es with
      | [] => rw [drainEntries]
      | e :: rest =>
        rw [drainEntries, ihD]
        split
        · rfl
        · exact ihC _ _ _

/-- Every operation of the core mutual family preserves the length of
the promise heap. -/
theorem heapLenAll : ∀ f : Nat,
    (∀ m p t, (changeState f m p t).heap.length = m.heap.length) ∧
    (∀ m p v, (toFulfilledState f m p v).heap.length = m.heap.length) ∧
    (∀ m p v, (toRejectedState f m p v).heap.length = m.heap.length) ∧
    (∀ m p, (clearThenQueue f m p).heap.length = m.heap.length) ∧
    (∀ m es st pl, (drainEntries f m es st pl).heap.length = m.heap.length) ∧
    (∀ m p x, (resolveP f m p x).heap.length = m.heap.length) ∧
    (∀ m p cs fl, (runScriptCalls f m p cs fl).1.heap.length = m.heap.length)
  | 0 => by
    refine ⟨?_, ?_, ?_, ?_, ?_, ?_, ?_⟩ <;> intros <;>
      simp only [changeState, toFulfilledState, toRejectedState, clearThenQueue,
        drainEntries, resolveP, runScriptCalls]
  | f + 1 => by
    obtain ⟨ihC, ihF, ihR, ihQ, ihD, ihV, ihS⟩ := heapLenAll f
    refine ⟨?_, ?_, ?_, ?_, ?_, ?_, ?_⟩
    · intro m p t
      rw [changeState]
      split
      · rfl
      · rw [ihQ]
        split <;> exact heapLen_setP _ _ _
    · intro m p v
      rw [toFulfilledState]; exact ihC _ _ _
    · intro m p v
      rw [toRejectedState]; exact ihC _ _ _
    · intro m p
      rw [clearThenQueue]
      split
      · rfl
      · rw [show ∀ mm pp q, (setQueue mm pp q).heap.length = mm.heap.length from
          fun _ _ _ => heapLen_setP _ _ _, ihD]
    · intro m es st pl
      match es with
      | [] => rw [drainEntries]
      | e :: rest =>
        rw [drainEntries, ihD]
        split
        · rfl
        · exact ihC _ _ _
    · intro m p x
      cases x with
      | promiseRef r =>
        simp only [resolveP]
        split
        · exact ihR _ _ _
        · rw [ihQ]; exact heapLen_setP _ _ _
      | obj ta =>
        cases ta with
        | throws e => simp only [resolveP]; exact ihR _ _ _
        | notCallable v => simp only [resolveP]; exact ihF _ _ _
        | callable calls thrown =>
          cases thrown with
          | some e =>
            simp only [resolveP]
            split
            · exact ihS _ _ _ _
            · rw [ihR]; exact ihS _ _ _ _
          | none => simp only [resolveP]; exact ihS _ _ _ _
      | undef => simp only [resolveP]; exact ihF _ _ _
      | num n => simp only [resolveP]; exact ihF _ _ _
      | str s => simp only [resolveP]; exact ihF _ _ _
      | arr vs => simp only [resolveP]; exact ihF _ _ _
      | typeError s => simp only [resolveP]; exact ihF _ _ _
    · intro m p cs fl
      cases cs with
      | nil => simp only [runScriptCalls]
      | cons c rest =>
        simp only [runScriptCalls]
        rw [ihS]
        split
        · rfl
        · split
          · exact ihV _ _ _
          · exact ihR _ _ _

theorem invokes_append (l1 l2 : List Event) :
    invokes (l1 ++ l2) = invokes l1 ++ invokes l2 := by
  simp [invokes, List.filterMap_append]

/-- No operation of the core mutual family appends a handler-invocation
record to the event log (the resolution procedure appends only
`thenRead` records). -/
theorem invokesAll : ∀ f : Nat,
    (∀ m p t, invokes (changeState f m p t).log = invokes m.log) ∧
    (∀ m p v, invokes (toFulfilledState f m p v).log = invokes m.log) ∧
    (∀ m p v, invokes (toRejectedState f m p v).log = invokes m.log) ∧
    (∀ m p, invokes (clearThenQueue f m p).log = invokes m.log) ∧
    (∀ m es st pl, invokes (drainEntries f m es st pl).log = invokes m.log) ∧
    (∀ m p x, invokes (resolveP f m p x).log = invokes m.log) ∧
    (∀ m p cs fl, invokes (runScriptCalls f m p cs fl).1.log = invokes m.log)
  | 0 => by
    refine ⟨?_, ?_, ?_, ?_, ?_, ?_, ?_⟩ <;> intros <;>
      simp only [changeState, toFulfilledState, toRejectedState, clearThenQueue,
        drainEntries, resolveP, runScriptCalls]
  | f + 1 => by
    obtain ⟨ihC, ihF, ihR, ihQ, ihD, ihV, ihS⟩ := invokesAll f
    have hL := logAll (f + 1)
    refine ⟨?_, ?_, ?_, ?_, ?_, ?_, ?_⟩
    · intro m p t
      rw [hL.1]
    · intro m p v
      rw [hL.2.1]
    · intro m p v
      rw [hL.2.2.1]
    · intro m p
      rw [hL.2.2.2.1]
    · intro m es st pl
      rw [hL.2.2.2.2]
    · intro m p x
      have hlog : ∀ ta, invokes (logEvent m (Event.thenRead ta)).log = invokes m.log := by
        intro ta
        show invokes (m.log ++ [Event.thenRead ta]) = invokes m.log
        rw [invokes_append]
        simp [invokes]
      cases x with
      | promiseRef r =>
        simp only [resolveP]
        split
        · exact ihR _ _ _
        · exact ihQ _ _
      | obj ta =>
        cases ta with
        | throws e => simp only [resolveP]; rw [ihR]; exact hlog _
        | notCallable v => simp only [resolveP]; rw [ihF]; exact hlog _
        | callable calls thrown =>
          cases thrown with
          | some e =>
            simp only [resolveP]
            split
            · rw [ihS]; exact hlog _
            · rw [ihR, ihS]; exact hlog _
          | none => simp only [resolveP]; rw [ihS]; exact hlog _
      | undef => simp only [resolveP]; exact ihF _ _ _
      | num n => simp only [resolveP]; exact ihF _ _ _
      | str s => simp only [resolveP]; exact ihF _ _ _
      | arr vs => simp only [resolveP]; exact ihF _ _ _
      | typeError s => simp only [resolveP]; exact ihF _ _ _
    · intro m p cs fl
      cases cs with
      | nil => simp only [runScriptCalls]
      | cons c rest =>
        simp only [runScriptCalls]
        rw [ihS]
        split
        · rfl
        · split
          · exact ihV _ _ _
          · exact ihR _ _ _

theorem cf_get {m : Machine} (h : CallableFree m) (p : Nat) :
    ∀ r ∈ (getP m p).thenQueue, r.inert := by
  intro r hr
  by_cases hl : p < m.heap.length
  · refine h (getP m p) ?_ r hr
    have : getP m p = m.heap[p] := by
      simp [getP, List.getD, List.getElem?_eq_getElem hl]
    rw [this]
    exact List.getElem_mem hl
  · have : getP m p = {} := by
      simp [getP, List.getD, List.getElem?_eq_none (Nat.le_of_not_lt hl)]
    rw [this] at hr
    simp [PromiseObj.thenQueue] at hr

theorem cf_setP {m : Machine} {p : Nat} {P : PromiseObj} (h : CallableFree m)
    (hP : ∀ r ∈ P.thenQueue, r.inert) : CallableFree (setP m p P) := by
  intro Q hQ r hr
  rcases List.mem_or_eq_of_mem_set hQ with hQ' | hQ'
  · exact h Q hQ' r hr
  · subst hQ'; exact hP r hr

theorem cf_heapEq {m m' : Machine} (h : CallableFree m) (he : m'.heap = m.heap) :
    CallableFree m' := by
  intro Q hQ
  rw [he] at hQ
  exact h Q hQ

/-- Under a heap whose queues hold no callable handler, no operation of
the core mutual family schedules a task, and the heap stays free of
callable queued handlers. -/
theorem tasksAll : ∀ f : Nat,
    (∀ m p t, CallableFree m →
      (changeState f m p t).tasks = m.tasks ∧ CallableFree (changeState f m p t)) ∧
    (∀ m p v, CallableFree m →
      (toFulfilledState f m p v).tasks = m.tasks ∧ CallableFree (toFulfilledState f m p v)) ∧
    (∀ m p v, CallableFree m →
      (toRejectedState f m p v).tasks = m.tasks ∧ CallableFree (toRejectedState f m p v)) ∧
    (∀ m p, CallableFree m →
      (clearThenQueue f m p).tasks = m.tasks ∧ CallableFree (clearThenQueue f m p)) ∧
    (∀ m es st pl, CallableFree m → (∀ r ∈ es, r.inert) →
      (drainEntries f m es st pl).tasks = m.tasks ∧ CallableFree (drainEntries f m es st pl)) ∧
    (∀ m p x, CallableFree m →
      (resolveP f m p x).tasks = m.tasks ∧ CallableFree (resolveP f m p x)) ∧
    (∀ m p cs fl, CallableFree m →
      (runScriptCalls f m p cs fl).1.tasks = m.tasks ∧
        CallableFree (runScriptCalls f m p cs fl).1)
  | 0 => by
    refine ⟨?_, ?_, ?_, ?_, ?_, ?_, ?_⟩ <;> intros <;>
      simp only [changeState, toFulfilledState, toRejectedState, clearThenQueue,
        drainEntries, resolveP, runScriptCalls] <;>
      exact ⟨trivial, by assumption⟩
  | f + 1 => by
    obtain ⟨ihC, ihF, ihR, ihQ, ihD, ihV, ihS⟩ := tasksAll f
    refine ⟨?_, ?_, ?_, ?_, ?_, ?_, ?_⟩
    · intro m p t hm
      rw [changeState]
      split
      · exact ⟨rfl, hm⟩
      · have hset : ∀ P : PromiseObj, P.thenQueue = (getP m p).thenQueue →
            (clearThenQueue f (setP m p P) p).tasks = m.tasks ∧
              CallableFree (clearThenQueue f (setP m p P) p) := by
          intro P hPq
          have hcf : CallableFree (setP m p P) :=
            cf_setP hm (by rw [hPq]; exact cf_get hm p)
          obtain ⟨ht, hc⟩ := ihQ (setP m p P) p hcf
          exact ⟨ht, hc⟩
        split <;> exact hset _ rfl
    · intro m p v hm
      rw [toFulfilledState]; exact ihC _ _ _ hm
    · intro m p v hm
      rw [toRejectedState]; exact ihC _ _ _ hm
    · intro m p hm
      rw [clearThenQueue]
      split
      · exact ⟨rfl, hm⟩
      · obtain ⟨ht, hc⟩ := ihD m (getP m p).thenQueue _ _ hm (cf_get hm p)
        refine ⟨ht, ?_⟩
        exact cf_setP hc (by intro r hr; simp at hr)
    · intro m es st pl hm hes
      match es with
      | [] => rw [drainEntries]; exact ⟨rfl, hm⟩
      | e :: rest =>
        simp only [drainEntries]
        have he := hes e (by simp)
        have hrest : ∀ r ∈ rest, r.inert := fun r hr => hes r (by simp [hr])
        obtain ⟨hff, hrf⟩ := he
        have hdone : ∀ m1 : Machine, m1.tasks = m.tasks → CallableFree m1 →
            (drainEntries f m1 rest st pl).tasks = m.tasks ∧
              CallableFree (drainEntries f m1 rest st pl) := by
          intro m1 ht hc
          obtain ⟨ht2, hc2⟩ := ihD m1 rest st pl hc hrest
          exact ⟨ht2.trans ht, hc2⟩
        by_cases hst : st = PState.fulfilled
        · rw [if_pos hst]
          cases hh : e.onFulfilled with
          | fn hid code => rw [hh] at hff; simp [Handler.isFn] at hff
          | notCallable v =>
            obtain ⟨ht1, hc1⟩ := ihC m e.returnPromise ⟨st, pl⟩ hm
            exact hdone _ ht1 hc1
        · rw [if_neg hst]
          cases hh : e.onRejected with
          | fn hid code => rw [hh] at hrf; simp [Handler.isFn] at hrf
          | notCallable v =>
            obtain ⟨ht1, hc1⟩ := ihC m e.returnPromise ⟨st, pl⟩ hm
            exact hdone _ ht1 hc1
    · intro m p x hm
      cases x with
      | promiseRef r =>
        simp only [resolveP]
        split
        · exact ihR _ _ _ hm
        · have hcf : CallableFree (pushQueue m r
              { onFulfilled := Handler.notCallable Value.undef,
                onRejected := Handler.notCallable Value.undef,
                returnPromise := p, isFinally := false }) := by
            refine cf_setP hm ?_
            intro q hq
            simp only [List.mem_append, List.mem_singleton] at hq
            rcases hq with hq | hq
            · exact cf_get hm r q hq
            · subst hq; exact ⟨rfl, rfl⟩
          exact ihQ _ _ hcf
      | obj ta =>
        have hlog : CallableFree (logEvent m (Event.thenRead ta)) :=
          cf_heapEq hm rfl
        cases ta with
        | throws e => simp only [resolveP]; exact ihR _ _ _ hlog
        | notCallable v => simp only [resolveP]; exact ihF _ _ _ hlog
        | callable calls thrown =>
          obtain ⟨hts, hcs⟩ := ihS (logEvent m (Event.thenRead
            (ThenAccess.callable calls thrown))) p calls false hlog
          cases thrown with
          | some e =>
            simp only [resolveP]
            split
            · exact ⟨hts, hcs⟩
            · obtain ⟨ht2, hc2⟩ := ihR _ p e hcs
              exact ⟨ht2.trans hts, hc2⟩
          | none => simp only [resolveP]; exact ⟨hts, hcs⟩
      | undef => simp only [resolveP]; exact ihF _ _ _ hm
      | num n => simp only [resolveP]; exact ihF _ _ _ hm
      | str s => simp only [resolveP]; exact ihF _ _ _ hm
      | arr vs => simp only [resolveP]; exact ihF _ _ _ hm
      | typeError s => simp only [resolveP]; exact ihF _ _ _ hm
    · intro m p cs fl hm
      cases cs with
      | nil => simp only [runScriptCalls]; exact ⟨trivial, hm⟩
      | cons c rest =>
        simp only [runScriptCalls]
        have hstep : ∀ m1 : Machine, CallableFree m1 → m1.tasks = m.tasks →
            (runScriptCalls f m1 p rest true).1.tasks = m.tasks ∧
              CallableFree (runScriptCalls f m1 p rest true).1 := by
          intro m1 hc ht
          obtain ⟨ht2, hc2⟩ := ihS m1 p rest true hc
          exact ⟨ht2.trans ht, hc2⟩
        split
        · exact hstep m hm rfl
        · split
          · obtain ⟨ht1, hc1⟩ := ihV m p _ hm
            exact hstep _ hc1 ht1
          · obtain ⟨ht1, hc1⟩ := ihR m p _ hm
            exact hstep _ hc1 ht1

/-- Running a handler body on a callable-free heap schedules no task,
keeps the heap callable-free and invokes no further handler. -/
theorem runHFun_free (f : Nat) (m : Machine) (code : HFun) (v : Value)
    (hm : CallableFree m) :
    (runHFun f m code v).1.tasks = m.tasks ∧ CallableFree (runHFun f m code v).1 ∧
      invokes (runHFun f m code v).1.log = invokes m.log := by
  have hT := tasksAll f
  have hI := invokesAll f
  cases code with
  | pure fn => exact ⟨rfl, hm, rfl⟩
  | allOnFulfilled idx total np cell =>
    simp only [runHFun]
    split
    · have hc1 : CallableFree (setCell m cell
          ⟨(getCell m cell).values.set idx (some v), (getCell m cell).finished + 1⟩) :=
        cf_heapEq hm rfl
      obtain ⟨ht, hc⟩ := hT.2.2.2.2.2.1 (setCell m cell
          ⟨(getCell m cell).values.set idx (some v), (getCell m cell).finished + 1⟩)
        np (cellArr (getCell (setCell m cell
          ⟨(getCell m cell).values.set idx (some v), (getCell m cell).finished + 1⟩) cell)) hc1
      exact ⟨ht, hc, hI.2.2.2.2.2.1 _ np _⟩
    · exact ⟨rfl, cf_heapEq hm rfl, rfl⟩
  | allOnRejected np =>
    obtain ⟨ht, hc⟩ := hT.2.2.1 m np v hm
    exact ⟨ht, hc, hI.2.2.1 m np v⟩
  | raceOnFulfilled np =>
    obtain ⟨ht, hc⟩ := hT.2.2.2.2.2.1 m np v hm
    exact ⟨ht, hc, hI.2.2.2.2.2.1 m np v⟩
  | raceOnRejected np =>
    obtain ⟨ht, hc⟩ := hT.2.2.1 m np v hm
    exact ⟨ht, hc, hI.2.2.1 m np v⟩

/-- Running one scheduled callback on a callable-free heap records
exactly one handler invocation, schedules no further task and keeps the
heap callable-free. -/
theorem runTask_free (f : Nat) (m : Machine) (t : Task) (hm : CallableFree m) :
    (runTask f m t).tasks = m.tasks ∧ CallableFree (runTask f m t) ∧
      invokes (runTask f m t).log = invokes m.log ++ [(t.hid, t.payload)] := by
  have hT := tasksAll f
  have hI := invokesAll f
  have hm1 : CallableFree (logEvent m (Event.invoke t.hid t.payload)) :=
    cf_heapEq hm rfl
  have hinv1 : invokes (logEvent m (Event.invoke t.hid t.payload)).log =
      invokes m.log ++ [(t.hid, t.payload)] := by
    show invokes (m.log ++ [Event.invoke t.hid t.payload]) = _
    rw [invokes_append]
    simp [invokes]
  obtain ⟨hht, hhc, hhi⟩ :=
    runHFun_free f (logEvent m (Event.invoke t.hid t.payload)) t.code t.payload hm1
  have hform : runTask f m t =
      match runHFun f (logEvent m (Event.invoke t.hid t.payload)) t.code t.payload with
      | (m2, Except.error e) => toRejectedState f m2 t.returnPromise e
      | (m2, Except.ok x) =>
        if t.isFinally then changeState f m2 t.returnPromise ⟨t.settledState, t.payload⟩
        else resolveP f m2 t.returnPromise x := rfl
  have hlt : (logEvent m (Event.invoke t.hid t.payload)).tasks = m.tasks := rfl
  rw [hform]
  split
  · rename_i m2 e heq
    rw [heq] at hht hhc hhi
    simp only at hht hhc hhi
    obtain ⟨ht, hc⟩ := hT.2.2.1 m2 t.returnPromise e hhc
    exact ⟨(ht.trans hht).trans hlt, hc,
      (hI.2.2.1 m2 t.returnPromise e).trans (hhi.trans hinv1)⟩
  · rename_i m2 x heq
    rw [heq] at hht hhc hhi
    simp only at hht hhc hhi
    split
    · obtain ⟨ht, hc⟩ := hT.1 m2 t.returnPromise ⟨t.settledState, t.payload⟩ hhc
      exact ⟨(ht.trans hht).trans hlt, hc,
        (hI.1 m2 t.returnPromise ⟨t.settledState, t.payload⟩).trans (hhi.trans hinv1)⟩
    · obtain ⟨ht, hc⟩ := hT.2.2.2.2.2.1 m2 t.returnPromise x hhc
      exact ⟨(ht.trans hht).trans hlt, hc,
        (hI.2.2.2.2.2.1 m2 t.returnPromise x).trans (hhi.trans hinv1)⟩

/-- Draining a task queue over a callable-free heap runs exactly the
queued tasks, in FIFO order, recording their invocations in order. -/
theorem runAll_free : ∀ (ts : List Task) (f : Nat) (m : Machine),
    m.tasks = ts → CallableFree m →
    (runAll ts.length f m).tasks = [] ∧ CallableFree (runAll ts.length f m) ∧
      invokes (runAll ts.length f m).log =
        invokes m.log ++ ts.map (fun t => (t.hid, t.payload))
  | [], _, m, hts, hm => ⟨hts, hm, by simp [runAll]⟩
  | t :: rest, f, m, hts, hm => by
    have : runAll (t :: rest).length f m =
        runAll rest.length f (runTask f { m with tasks := rest } t) := by
      simp only [List.length_cons, runAll, hts]
    rw [this]
    obtain ⟨ht1, hc1, hi1⟩ := runTask_free f { m with tasks := rest } t
      (cf_heapEq hm rfl)
    obtain ⟨ht2, hc2, hi2⟩ := runAll_free rest f (runTask f { m with tasks := rest } t)
      ht1 hc1
    refine ⟨ht2, hc2, ?_⟩
    rw [hi2, hi1]
    show invokes m.log ++ [(t.hid, t.payload)] ++ _ = _
    simp

theorem changeState_settled_noop (f : Nat) (m : Machine) (p : Nat)
    (t : StateTransition) (h : (getP m p).state ≠ PState.pending) :
    changeState f m p t = m := by
  cases f with
  | zero => rfl
  | succ f => rw [changeState, if_pos h]

theorem runScriptCalls_true : ∀ (f : Nat) (m : Machine) (p : Nat)
    (cs : List ScriptCall), runScriptCalls f m p cs true = (m, true)
  | 0, _, _, _ => rfl
  | _ + 1, _, _, [] => rfl
  | f + 1, m, p, c :: rest => by
    simp only [runScriptCalls, if_pos]
    exact runScriptCalls_true f m p rest

/-- C1: once a settle call has moved a container out of Pending, any
later settle call, with any transition, returns the machine unchanged:
state, stored value and stored reason stay exactly as the first outcome
left them.  The model is a total function, so the second call also
raises no error. -/
theorem settle_second_call_noop (f g : Nat) (m : Machine) (p : Nat)
    (t1 t2 : StateTransition)
    (h : (getP (changeState f m p t1) p).state ≠ PState.pending) :
    changeState g (changeState f m p t1) p t2 = changeState f m p t1 :=
  changeState_settled_noop g _ p t2 h

theorem settle_second_call_noop_witness :
    ((getP (changeState 5 (freshP emptyMachine).1 0
        ⟨PState.fulfilled, Value.num 1⟩) 0).state ≠ PState.pending) ∧
    changeState 5 (changeState 5 (freshP emptyMachine).1 0
        ⟨PState.fulfilled, Value.num 1⟩) 0 ⟨PState.rejected, Value.str "x"⟩ =
      changeState 5 (freshP emptyMachine).1 0 ⟨PState.fulfilled, Value.num 1⟩ :=
  ⟨by decide, settle_second_call_noop 5 5 (freshP emptyMachine).1 0
    ⟨PState.fulfilled, Value.num 1⟩ ⟨PState.rejected, Value.str "x"⟩ (by decide)⟩

/-- C3: when the resolution procedure adopts a callable `then` whose
synchronous behaviour is a first callback call `c` followed by any
further calls `cs` and an optional terminal throw, the result equals the
effect of the first call alone: every later or duplicate call to either
generated callback is ignored, and a throw raised after a callback has
fired is swallowed rather than rejecting the container. -/
theorem thenable_first_call_wins (f : Nat) (m : Machine) (p : Nat)
    (c : ScriptCall) (cs : List ScriptCall) (thrown : Option Value) :
    resolveP (f + 2) m p (Value.obj (ThenAccess.callable (c :: cs) thrown)) =
      match c with
      | ScriptCall.res y =>
        resolveP f (logEvent m (Event.thenRead (ThenAccess.callable (c :: cs) thrown))) p y
      | ScriptCall.rej r =>
        toRejectedState f (logEvent m (Event.thenRead (ThenAccess.callable (c :: cs) thrown))) p r := by
  cases c with
  | res y =>
    simp only [resolveP, runScriptCalls, Bool.false_eq_true, if_false,
      runScriptCalls_true]
    cases thrown <;> simp
  | rej r =>
    simp only [resolveP, runScriptCalls, Bool.false_eq_true, if_false,
      runScriptCalls_true]
    cases thrown <;> simp

/-- C4: neither `then` (attachment, even on a settled container) nor
`changeState` (settlement) ever appends to the event log: no handler is
invoked and no `then` property is read synchronously inside them.
Handler invocation records appear only when `runTask` executes a task
that drainage scheduled on the deferred queue. -/
theorem attach_and_settle_invoke_nothing (f : Nat) (m : Machine) (p : Nat)
    (onF onR : Handler) (fin : Bool) (t : StateTransition) :
    ((thenAttach f m p onF onR fin).1).log = m.log ∧
      (changeState f m p t).log = m.log := by
  constructor
  · show (clearThenQueue f _ p).log = m.log
    rw [(logAll f).2.2.2.1]
    rfl
  · exact (logAll f).1 m p t

/-- C10: `race` on an empty input list only allocates the fresh
aggregate promise: the returned machine is the input machine with one
blank pending promise appended, the returned reference is that promise,
its state is Pending, and the task queue and event log are untouched, so
no operation performed by `race` itself can ever settle it. -/
theorem race_empty_stays_pending (f : Nat) (m : Machine) :
    (myRace f m []).1 = { m with heap := m.heap ++ [{}] } ∧
      (myRace f m []).2 = m.heap.length ∧
      (getP (myRace f m []).1 (myRace f m []).2).state = PState.pending ∧
      (myRace f m []).1.tasks = m.tasks ∧
      (myRace f m []).1.log = m.log := by
  refine ⟨rfl, rfl, ?_, rfl, rfl⟩
  show (getP (freshP m).1 (freshP m).2).state = PState.pending
  rw [getP_fresh_self]

theorem changeState_pending_sets (f : Nat) (m : Machine) (p : Nat)
    (t : StateTransition) (hp : p < m.heap.length)
    (hpend : (getP m p).state = PState.pending) (ht : t.state ≠ PState.pending) :
    (getP (changeState (f + 1) m p t) p).state = t.state ∧
    (t.state = PState.fulfilled →
      (getP (changeState (f + 1) m p t) p).value = t.payload) ∧
    (t.state ≠ PState.fulfilled →
      (getP (changeState (f + 1) m p t) p).reason = t.payload) := by
  rw [changeState, if_neg (by simp [hpend])]
  by_cases hf : t.state = PState.fulfilled
  · rw [if_pos hf]
    have hg : getP (setP m p { getP m p with state := t.state, value := t.payload }) p =
        { getP m p with state := t.state, value := t.payload } :=
      getP_setP_self m p _ hp
    obtain ⟨hs, hv, _⟩ := (frozenAll f).2.2.2.1
      (setP m p { getP m p with state := t.state, value := t.payload }) p p
      (by rw [hg]; exact ht)
    rw [hg] at hs hv
    exact ⟨hs, fun _ => hv, fun hc => absurd hf hc⟩
  · rw [if_neg hf]
    have hg : getP (setP m p { getP m p with state := t.state, reason := t.payload }) p =
        { getP m p with state := t.state, reason := t.payload } :=
      getP_setP_self m p _ hp
    obtain ⟨hs, _, hr⟩ := (frozenAll f).2.2.2.1
      (setP m p { getP m p with state := t.state, reason := t.payload }) p p
      (by rw [hg]; exact ht)
    rw [hg] at hs hr
    exact ⟨hs, fun hc => absurd hc hf, fun _ => hr⟩

/-- The resolution procedure and the generated-callback runner only
append to the event log, never rewrite it. -/
theorem logMono : ∀ f : Nat,
    (∀ m p x, ∃ ext, (resolveP f m p x).log = m.log ++ ext) ∧
    (∀ m p cs fl, ∃ ext, (runScriptCalls f m p cs fl).1.log = m.log ++ ext)
  | 0 => by
    constructor
    · intro m p x
      exact ⟨[], by simp [resolveP]⟩
    · intro m p cs fl
      exact ⟨[], by simp [runScriptCalls]⟩
  | f + 1 => by
    obtain ⟨ihV, ihS⟩ := logMono f
    constructor
    · intro m p x
      cases x with
      | promiseRef r =>
        simp only [resolveP]
        split
        · exact ⟨[], by rw [(logAll f).2.2.1]; simp⟩
        · exact ⟨[], by rw [(logAll f).2.2.2.1]; simp [pushQueue, setP]⟩
      | obj ta =>
        cases ta with
        | throws e =>
          refine ⟨[Event.thenRead (ThenAccess.throws e)], ?_⟩
          simp only [resolveP]
          rw [(logAll f).2.2.1]
          rfl
        | notCallable v =>
          refine ⟨[Event.thenRead (ThenAccess.notCallable v)], ?_⟩
          simp only [resolveP]
          rw [(logAll f).2.1]
          rfl
        | callable calls thrown =>
          obtain ⟨ext, hext⟩ := ihS
            (logEvent m (Event.thenRead (ThenAccess.callable calls thrown))) p calls false
          cases thrown with
          | none =>
            refine ⟨[Event.thenRead (ThenAccess.callable calls none)] ++ ext, ?_⟩
            simp only [resolveP]
            rw [hext]
            simp [logEvent]
          | some e =>
            refine ⟨[Event.thenRead (ThenAccess.callable calls (some e))] ++ ext, ?_⟩
            simp only [resolveP]
            rcases hmf : runScriptCalls f
              (logEvent m (Event.thenRead (ThenAccess.callable calls (some e)))) p
              calls false with ⟨mf, flag⟩
            rw [hmf] at hext
            simp only at hext
            cases flag with
            | true =>
              show mf.log = _
              rw [hext]
              simp [logEvent]
            | false =>
              show (toRejectedState f mf p e).log = _
              rw [(logAll f).2.2.1, hext]
              simp [logEvent]
      | undef =>
        exact ⟨[], by simp only [resolveP]; rw [(logAll f).2.1]; simp⟩
      | num n =>
        exact ⟨[], by simp only [resolveP]; rw [(logAll f).2.1]; simp⟩
      | str sv =>
        exact ⟨[], by simp only [resolveP]; rw [(logAll f).2.1]; simp⟩
      | arr vs =>
        exact ⟨[], by simp only [resolveP]; rw [(logAll f).2.1]; simp⟩
      | typeError sv =>
        exact ⟨[], by simp only [resolveP]; rw [(logAll f).2.1]; simp⟩
    · intro m p cs fl
      cases cs with
      | nil => exact ⟨[], by simp [runScriptCalls]⟩
      | cons c rest =>
        simp only [runScriptCalls]
        split
        · exact ihS m p rest true
        · split
          · rename_i y
            obtain ⟨e1, h1⟩ := ihV m p y
            obtain ⟨e2, h2⟩ := ihS (resolveP f m p y) p rest true
            refine ⟨e1 ++ e2, ?_⟩
            rw [h2, h1, List.append_assoc]
          · rename_i r
            obtain ⟨e2, h2⟩ := ihS (toRejectedState f m p r) p rest true
            refine ⟨e2, ?_⟩
            rw [h2, (logAll f).2.2.1]

/-- C2: resolving a pending container against an object-or-function
value reads its `then` property exactly once, caching the result: if
the read throws `e` the container is rejected with `e` (one `thenRead`
record in total); if the cached `then` is not callable the container is
fulfilled with the object itself (one `thenRead` record in total); and
if the cached `then` is callable, the whole log effect of the
resolution is the single up-front `thenRead` record followed by exactly
what the invocation of the cached callable contributes through the two
generated callbacks — the procedure itself never reads the property
again. -/
theorem resolve_reads_then_once (f : Nat) (m : Machine) (p : Nat)
    (hp : p < m.heap.length) (hpend : (getP m p).state = PState.pending) :
    (∀ e,
      (getP (resolveP (f + 3) m p (Value.obj (ThenAccess.throws e))) p).state =
          PState.rejected ∧
      (getP (resolveP (f + 3) m p (Value.obj (ThenAccess.throws e))) p).reason = e ∧
      (resolveP (f + 3) m p (Value.obj (ThenAccess.throws e))).log =
        m.log ++ [Event.thenRead (ThenAccess.throws e)]) ∧
    (∀ v,
      (getP (resolveP (f + 3) m p (Value.obj (ThenAccess.notCallable v))) p).state =
          PState.fulfilled ∧
      (getP (resolveP (f + 3) m p (Value.obj (ThenAccess.notCallable v))) p).value =
        Value.obj (ThenAccess.notCallable v) ∧
      (resolveP (f + 3) m p (Value.obj (ThenAccess.notCallable v))).log =
        m.log ++ [Event.thenRead (ThenAccess.notCallable v)]) ∧
    (∀ calls thrown,
      (resolveP (f + 3) m p (Value.obj (ThenAccess.callable calls thrown))).log =
        (runScriptCalls (f + 2)
          (logEvent m (Event.thenRead (ThenAccess.callable calls thrown))) p
          calls false).1.log ∧
      ∃ rest,
        (resolveP (f + 3) m p (Value.obj (ThenAccess.callable calls thrown))).log =
          m.log ++ [Event.thenRead (ThenAccess.callable calls thrown)] ++ rest) := by
  refine ⟨?_, ?_, ?_⟩
  · intro e
    have hstep : resolveP (f + 3) m p (Value.obj (ThenAccess.throws e)) =
        changeState (f + 1) (logEvent m (Event.thenRead (ThenAccess.throws e))) p
          ⟨PState.rejected, e⟩ := rfl
    rw [hstep]
    obtain ⟨hs, _, hr⟩ := changeState_pending_sets f
      (logEvent m (Event.thenRead (ThenAccess.throws e))) p ⟨PState.rejected, e⟩
      hp hpend (by simp)
    exact ⟨hs, hr (by simp), by rw [(logAll (f + 1)).1]; rfl⟩
  · intro v
    have hstep : resolveP (f + 3) m p (Value.obj (ThenAccess.notCallable v)) =
        changeState (f + 1) (logEvent m (Event.thenRead (ThenAccess.notCallable v))) p
          ⟨PState.fulfilled, Value.obj (ThenAccess.notCallable v)⟩ := rfl
    rw [hstep]
    obtain ⟨hs, hv, _⟩ := changeState_pending_sets f
      (logEvent m (Event.thenRead (ThenAccess.notCallable v))) p
      ⟨PState.fulfilled, Value.obj (ThenAccess.notCallable v)⟩
      hp hpend (by simp)
    exact ⟨hs, hv rfl, by rw [(logAll (f + 1)).1]; rfl⟩
  · intro calls thrown
    have heq : (resolveP (f + 3) m p (Value.obj (ThenAccess.callable calls thrown))).log =
        (runScriptCalls (f + 2)
          (logEvent m (Event.thenRead (ThenAccess.callable calls thrown))) p
          calls false).1.log := by
      cases thrown with
      | none => rfl
      | some e =>
        show (resolveP (f + 2 + 1) m p
          (Value.obj (ThenAccess.callable calls (some e)))).log = _
        simp only [resolveP]
        rcases hmf : runScriptCalls (f + 2)
          (logEvent m (Event.thenRead (ThenAccess.callable calls (some e)))) p
          calls false with ⟨mf, flag⟩
        cases flag with
        | true => rfl
        | false =>
          show (toRejectedState (f + 2) mf p e).log = mf.log
          exact (logAll (f + 2)).2.2.1 mf p e
    refine ⟨heq, ?_⟩
    obtain ⟨ext, hext⟩ := (logMono (f + 2)).2
      (logEvent m (Event.thenRead (ThenAccess.callable calls thrown))) p calls false
    refine ⟨ext, ?_⟩
    rw [heq, hext]
    rfl

theorem resolve_reads_then_once_witness :
    (0 < (freshP emptyMachine).1.heap.length ∧
      (getP (freshP emptyMachine).1 0).state = PState.pending) ∧
    ((getP (resolveP 8 (freshP emptyMachine).1 0
        (Value.obj (ThenAccess.throws (Value.str "boom")))) 0).state =
      PState.rejected) := by
  refine ⟨⟨by decide, by decide⟩, ?_⟩
  exact ((resolve_reads_then_once 5 (freshP emptyMachine).1 0 (by decide)
    (by decide)).1 (Value.str "boom")).1

/-- C6: resolving a pending container with itself rejects it with the
cyclic-resolution `TypeError` carrying the source's message.  The model
of the resolution procedure is a total function, so the error is
reported only through the container, never thrown to the caller. -/
theorem resolve_self_cycle_rejects (f : Nat) (m : Machine) (p : Nat)
    (hp : p < m.heap.length) (hpend : (getP m p).state = PState.pending) :
    (getP (resolveP (f + 3) m p (Value.promiseRef p)) p).state = PState.rejected ∧
    (getP (resolveP (f + 3) m p (Value.promiseRef p)) p).reason =
      Value.typeError "Chaining cycle detected for promise #<PromiseAPLus>" := by
  have hstep : resolveP (f + 3) m p (Value.promiseRef p) =
      changeState (f + 1) m p ⟨PState.rejected,
        Value.typeError "Chaining cycle detected for promise #<PromiseAPLus>"⟩ := by
    show (if p = p then _ else _) = _
    rw [if_pos rfl]
    rfl
  rw [hstep]
  obtain ⟨hs, _, hr⟩ := changeState_pending_sets f m p
    ⟨PState.rejected, Value.typeError "Chaining cycle detected for promise #<PromiseAPLus>"⟩
    hp hpend (by simp)
  exact ⟨hs, hr (by simp)⟩

theorem resolve_self_cycle_rejects_witness :
    (0 < (freshP emptyMachine).1.heap.length ∧
      (getP (freshP emptyMachine).1 0).state = PState.pending) ∧
    (getP (resolveP 8 (freshP emptyMachine).1 0 (Value.promiseRef 0)) 0).state =
      PState.rejected :=
  ⟨⟨by decide, by decide⟩,
    (resolve_self_cycle_rejects 5 (freshP emptyMachine).1 0 (by decide) (by decide)).1⟩

theorem clearThenQueue_settled_fields (f : Nat) (m : Machine) (p : Nat)
    (hp : p < m.heap.length) (hst : ¬ (getP m p).state = PState.pending) :
    getP (clearThenQueue (f + 1) m p) p = { getP m p with thenQueue := [] } := by
  simp only [clearThenQueue]
  rw [if_neg hst]
  obtain ⟨hs, hv, hr⟩ := (frozenAll f).2.2.2.2.1 m (getP m p).thenQueue
    (getP m p).state
    (if (getP m p).state = PState.fulfilled then (getP m p).value else (getP m p).reason)
    p hst
  have hpl : p < (drainEntries f m (getP m p).thenQueue (getP m p).state
      (if (getP m p).state = PState.fulfilled then (getP m p).value
       else (getP m p).reason)).heap.length := by
    rw [(heapLenAll f).2.2.2.2.1]
    exact hp
  show getP (setP _ p _) p = _
  rw [getP_setP_self _ p _ hpl]
  simp only [hs, hv, hr]

/-- C9: `then` never changes the target container's state, stored value
or stored reason; its only mutations to the target are appending the new
registration to the callback queue (which stays when the container is
pending) and emptying the queue when the container is settled. -/
theorem then_frame_effect (f : Nat) (m : Machine) (p : Nat)
    (onF onR : Handler) (fin : Bool) (hp : p < m.heap.length) :
    (getP (thenAttach (f + 1) m p onF onR fin).1 p).state = (getP m p).state ∧
    (getP (thenAttach (f + 1) m p onF onR fin).1 p).value = (getP m p).value ∧
    (getP (thenAttach (f + 1) m p onF onR fin).1 p).reason = (getP m p).reason ∧
    (getP (thenAttach (f + 1) m p onF onR fin).1 p).thenQueue =
      (if (getP m p).state = PState.pending
       then (getP m p).thenQueue ++
         [⟨onF, onR, (thenAttach (f + 1) m p onF onR fin).2, fin⟩]
       else []) := by
  have hfresh : getP (freshP m).1 p = getP m p := getP_fresh_old m p hp
  have hlen1 : p < (freshP m).1.heap.length := by
    simp only [freshP, List.length_append, List.length_cons, List.length_nil]
    omega
  have hm2 : getP (pushQueue (freshP m).1 p
      ⟨onF, onR, m.heap.length, fin⟩) p =
      { getP m p with thenQueue := (getP m p).thenQueue ++
        [⟨onF, onR, m.heap.length, fin⟩] } := by
    show getP (setP (freshP m).1 p _) p = _
    rw [getP_setP_self (freshP m).1 p _ hlen1, hfresh]
  have hr2 : (thenAttach (f + 1) m p onF onR fin).2 = m.heap.length := rfl
  have hun : (thenAttach (f + 1) m p onF onR fin).1 =
      clearThenQueue (f + 1) (pushQueue (freshP m).1 p
        ⟨onF, onR, m.heap.length, fin⟩) p := rfl
  rw [hun, hr2]
  by_cases hst : (getP m p).state = PState.pending
  · rw [clearThenQueue, if_pos (by rw [hm2]; exact hst), hm2, if_pos hst]
    exact ⟨rfl, rfl, rfl, rfl⟩
  · have hq := clearThenQueue_settled_fields f
      (pushQueue (freshP m).1 p ⟨onF, onR, m.heap.length, fin⟩) p
      (by rw [show (pushQueue (freshP m).1 p ⟨onF, onR, m.heap.length, fin⟩).heap.length =
          (freshP m).1.heap.length from heapLen_setP _ _ _]; exact hlen1)
      (by rw [hm2]; exact hst)
    rw [hq, hm2, if_neg hst]
    exact ⟨rfl, rfl, rfl, rfl⟩

theorem then_frame_effect_witness :
    (0 < (freshP emptyMachine).1.heap.length) ∧
    ((getP (thenAttach (5 + 1) (freshP emptyMachine).1 0
        (Handler.notCallable Value.undef) (Handler.notCallable Value.undef)
        false).1 0).state = (getP (freshP emptyMachine).1 0).state ∧
     (getP (thenAttach (5 + 1) (freshP emptyMachine).1 0
        (Handler.notCallable Value.undef) (Handler.notCallable Value.undef)
        false).1 0).value = (getP (freshP emptyMachine).1 0).value ∧
     (getP (thenAttach (5 + 1) (freshP emptyMachine).1 0
        (Handler.notCallable Value.undef) (Handler.notCallable Value.undef)
        false).1 0).reason = (getP (freshP emptyMachine).1 0).reason ∧
     (getP (thenAttach (5 + 1) (freshP emptyMachine).1 0
        (Handler.notCallable Value.undef) (Handler.notCallable Value.undef)
        false).1 0).thenQueue =
      (if (getP (freshP emptyMachine).1 0).state = PState.pending
       then (getP (freshP emptyMachine).1 0).thenQueue ++
         [⟨Handler.notCallable Value.undef, Handler.notCallable Value.undef,
           (thenAttach (5 + 1) (freshP emptyMachine).1 0
             (Handler.notCallable Value.undef) (Handler.notCallable Value.undef)
             false).2, false⟩]
       else [])) :=
  ⟨by decide, then_frame_effect 5 (freshP emptyMachine).1 0
    (Handler.notCallable Value.undef) (Handler.notCallable Value.undef) false
    (by decide)⟩

theorem getD_append_len {α : Type} (l : List α) (x d : α) :
    (l ++ [x]).getD l.length d = x := by
  simp [List.getD]

/-- C8: `all` on an empty input list returns a container that is already
fulfilled, synchronously, with the empty result array: the eager
`finishedCount === promisesArray.length` check fires before the per-item
loop (which is empty) and resolves the fresh aggregate with the empty
shared result array. -/
theorem all_empty_fulfilled (f : Nat) (m : Machine) :
    (getP (myAll (f + 4) m []).1 (myAll (f + 4) m []).2).state = PState.fulfilled ∧
    (getP (myAll (f + 4) m []).1 (myAll (f + 4) m []).2).value = Value.arr [] ∧
    (myAll (f + 4) m []).2 = m.heap.length := by
  have hform : myAll (f + 4) m [] =
      (resolveP (f + 4)
        { m with heap := m.heap ++ [{}],
                 cells := m.cells ++ [⟨List.replicate 0 none, 0⟩] }
        m.heap.length
        (cellArr (getCell
          { m with heap := m.heap ++ [{}],
                   cells := m.cells ++ [⟨List.replicate 0 none, 0⟩] }
          m.cells.length)), m.heap.length) := rfl
  have hcell : getCell
      { m with heap := m.heap ++ [{}],
               cells := m.cells ++ [⟨List.replicate 0 none, 0⟩] }
      m.cells.length = ⟨List.replicate 0 none, 0⟩ := by
    show (m.cells ++ [(⟨List.replicate 0 none, 0⟩ : AllCell)]).getD m.cells.length _ = _
    exact getD_append_len m.cells _ _
  have harr : cellArr (⟨List.replicate 0 none, 0⟩ : AllCell) = Value.arr [] := rfl
  have hstep : resolveP (f + 4)
      { m with heap := m.heap ++ [{}],
               cells := m.cells ++ [⟨List.replicate 0 none, 0⟩] }
      m.heap.length (Value.arr []) =
      changeState (f + 2)
        { m with heap := m.heap ++ [{}],
                 cells := m.cells ++ [⟨List.replicate 0 none, 0⟩] }
        m.heap.length ⟨PState.fulfilled, Value.arr []⟩ := rfl
  have hp : m.heap.length <
      ({ m with heap := m.heap ++ [{}],
                cells := m.cells ++ [⟨List.replicate 0 none, 0⟩] } : Machine).heap.length := by
    simp
  have hpend : (getP
      { m with heap := m.heap ++ [{}],
               cells := m.cells ++ [⟨List.replicate 0 none, 0⟩] }
      m.heap.length).state = PState.pending := by
    show ((m.heap ++ [({} : PromiseObj)]).getD m.heap.length {}).state = _
    rw [getD_append_len]
  obtain ⟨hs, hv, _⟩ := changeState_pending_sets (f + 1)
    { m with heap := m.heap ++ [{}],
             cells := m.cells ++ [⟨List.replicate 0 none, 0⟩] }
    m.heap.length ⟨PState.fulfilled, Value.arr []⟩ hp hpend (by simp)
  rw [hform]
  refine ⟨?_, ?_, rfl⟩
  · simp only
    rw [hcell, harr, hstep]
    exact hs
  · simp only
    rw [hcell, harr, hstep]
    exact hv rfl

/-- C7: a finally-flagged registration on a container that settles still
invokes its handler (once, with the settled payload); a throw from the
handler rejects the derived container with the thrown value; on normal
return the handler's result is ignored and the derived container
receives the upstream container's original state and payload. -/
theorem finally_flag_behaviour (h : Nat) (code : Value → Except Value Value)
    (w : Value) (s : PState) (hs : s ≠ PState.pending) :
    invokes (finallyScenario h code w s).log = [(h, w)] ∧
    (∀ e, code w = Except.error e →
      (getP (finallyScenario h code w s) 1).state = PState.rejected ∧
      (getP (finallyScenario h code w s) 1).reason = e) ∧
    (∀ x, code w = Except.ok x →
      (getP (finallyScenario h code w s) 1).state = s ∧
      (s = PState.fulfilled → (getP (finallyScenario h code w s) 1).value = w) ∧
      (s = PState.rejected → (getP (finallyScenario h code w s) 1).reason = w)) := by
  cases s with
  | pending => exact absurd rfl hs
  | fulfilled =>
    have hrun : finallyScenario h code w PState.fulfilled =
        runTask 10 ⟨[⟨PState.fulfilled, w, Value.undef, []⟩, {}], [], [], []⟩
          ⟨h, HFun.pure code, w, 1, true, PState.fulfilled⟩ := rfl
    have hp1 : 1 < (⟨[⟨PState.fulfilled, w, Value.undef, []⟩, {}], [],
        [Event.invoke h w], []⟩ : Machine).heap.length := by simp
    have hpend1 : (getP (⟨[⟨PState.fulfilled, w, Value.undef, []⟩, {}], [],
        [Event.invoke h w], []⟩ : Machine) 1).state = PState.pending := rfl
    cases hcw : code w with
    | error e0 =>
      have hfin : finallyScenario h code w PState.fulfilled =
          changeState 9 ⟨[⟨PState.fulfilled, w, Value.undef, []⟩, {}], [],
            [Event.invoke h w], []⟩ 1 ⟨PState.rejected, e0⟩ := by
        rw [hrun]
        simp only [runTask, runHFun, hcw, logEvent, List.nil_append]
        rfl
      obtain ⟨hst, _, hre⟩ := changeState_pending_sets 8
        ⟨[⟨PState.fulfilled, w, Value.undef, []⟩, {}], [], [Event.invoke h w], []⟩
        1 ⟨PState.rejected, e0⟩ hp1 hpend1 (by simp)
      refine ⟨?_, ?_, ?_⟩
      · rw [hfin, (logAll 9).1]
        rfl
      · intro e he
        injection he with he
        subst he
        rw [hfin]
        exact ⟨hst, hre (by simp)⟩
      · intro x hx
        exact absurd hx (by simp)
    | ok x0 =>
      have hfin : finallyScenario h code w PState.fulfilled =
          changeState 10 ⟨[⟨PState.fulfilled, w, Value.undef, []⟩, {}], [],
            [Event.invoke h w], []⟩ 1 ⟨PState.fulfilled, w⟩ := by
        rw [hrun]
        simp only [runTask, runHFun, hcw, logEvent, List.nil_append]
        rfl
      obtain ⟨hst, hva, _⟩ := changeState_pending_sets 9
        ⟨[⟨PState.fulfilled, w, Value.undef, []⟩, {}], [], [Event.invoke h w], []⟩
        1 ⟨PState.fulfilled, w⟩ hp1 hpend1 (by simp)
      refine ⟨?_, ?_, ?_⟩
      · rw [hfin, (logAll 10).1]
        rfl
      · intro e he
        exact absurd he (by simp)
      · intro x hx
        rw [hfin]
        exact ⟨hst, fun _ => hva rfl, fun hc => absurd hc (by simp)⟩
  | rejected =>
    have hrun : finallyScenario h code w PState.rejected =
        runTask 10 ⟨[⟨PState.rejected, Value.undef, w, []⟩, {}], [], [], []⟩
          ⟨h, HFun.pure code, w, 1, true, PState.rejected⟩ := rfl
    have hp1 : 1 < (⟨[⟨PState.rejected, Value.undef, w, []⟩, {}], [],
        [Event.invoke h w], []⟩ : Machine).heap.length := by simp
    have hpend1 : (getP (⟨[⟨PState.rejected, Value.undef, w, []⟩, {}], [],
        [Event.invoke h w], []⟩ : Machine) 1).state = PState.pending := rfl
    cases hcw : code w with
    | error e0 =>
      have hfin : finallyScenario h code w PState.rejected =
          changeState 9 ⟨[⟨PState.rejected, Value.undef, w, []⟩, {}], [],
            [Event.invoke h w], []⟩ 1 ⟨PState.rejected, e0⟩ := by
        rw [hrun]
        simp only [runTask, runHFun, hcw, logEvent, List.nil_append]
        rfl
      obtain ⟨hst, _, hre⟩ := changeState_pending_sets 8
        ⟨[⟨PState.rejected, Value.undef, w, []⟩, {}], [], [Event.invoke h w], []⟩
        1 ⟨PState.rejected, e0⟩ hp1 hpend1 (by simp)
      refine ⟨?_, ?_, ?_⟩
      · rw [hfin, (logAll 9).1]
        rfl
      · intro e he
        injection he with he
        subst he
        rw [hfin]
        exact ⟨hst, hre (by simp)⟩
      · intro x hx
        exact absurd hx (by simp)
    | ok x0 =>
      have hfin : finallyScenario h code w PState.rejected =
          changeState 10 ⟨[⟨PState.rejected, Value.undef, w, []⟩, {}], [],
            [Event.invoke h w], []⟩ 1 ⟨PState.rejected, w⟩ := by
        rw [hrun]
        simp only [runTask, runHFun, hcw, logEvent, List.nil_append]
        rfl
      obtain ⟨hst, _, hre⟩ := changeState_pending_sets 9
        ⟨[⟨PState.rejected, Value.undef, w, []⟩, {}], [], [Event.invoke h w], []⟩
        1 ⟨PState.rejected, w⟩ hp1 hpend1 (by simp)
      refine ⟨?_, ?_, ?_⟩
      · rw [hfin, (logAll 10).1]
        rfl
      · intro e he
        exact absurd he (by simp)
      · intro x hx
        rw [hfin]
        exact ⟨hst, fun hc => absurd hc (by simp), fun _ => hre (by simp)⟩

theorem finally_flag_behaviour_witness :
    ((PState.fulfilled ≠ PState.pending) ∧
      invokes (finallyScenario 1 (fun _ => Except.ok Value.undef)
        (Value.num 5) PState.fulfilled).log = [(1, Value.num 5)]) :=
  ⟨by decide,
    (finally_flag_behaviour 1 (fun _ => Except.ok Value.undef) (Value.num 5)
      PState.fulfilled (by decide)).1⟩

/-- C5: the callable handlers registered by separate `then` calls are
invoked in the order of those calls, each receiving the settled payload
as its argument — both when the promise settles after the attachments
and when it was already settled at attachment time. -/
theorem handlers_fire_in_attach_order (a b c : Nat)
    (ca cb cc : Value → Except Value Value) (hrA hrB hrC : Handler)
    (v : Value) (f : Nat) :
    invokes (orderingAttachFirst a b c ca cb cc hrA hrB hrC v f).log =
      [(a, v), (b, v), (c, v)] ∧
    invokes (orderingSettleFirst a b c ca cb cc hrA hrB hrC v f).log =
      [(a, v), (b, v), (c, v)] := by
  have hcf : CallableFree
      (⟨[⟨PState.fulfilled, v, Value.undef, []⟩, {}, {}, {}],
        [⟨a, HFun.pure ca, v, 1, false, PState.fulfilled⟩,
         ⟨b, HFun.pure cb, v, 2, false, PState.fulfilled⟩,
         ⟨c, HFun.pure cc, v, 3, false, PState.fulfilled⟩], [], []⟩ : Machine) := by
    intro P hP r hr
    simp only [Machine.heap, List.mem_cons, List.not_mem_nil, or_false] at hP
    rcases hP with h1 | h1 | h1 | h1 <;> subst h1 <;> simp at hr
  have hrf := runAll_free
    [⟨a, HFun.pure ca, v, 1, false, PState.fulfilled⟩,
     ⟨b, HFun.pure cb, v, 2, false, PState.fulfilled⟩,
     ⟨c, HFun.pure cc, v, 3, false, PState.fulfilled⟩] f
    (⟨[⟨PState.fulfilled, v, Value.undef, []⟩, {}, {}, {}],
      [⟨a, HFun.pure ca, v, 1, false, PState.fulfilled⟩,
       ⟨b, HFun.pure cb, v, 2, false, PState.fulfilled⟩,
       ⟨c, HFun.pure cc, v, 3, false, PState.fulfilled⟩], [], []⟩ : Machine)
    rfl hcf
  have hfinal : invokes (runAll 3 f
      (⟨[⟨PState.fulfilled, v, Value.undef, []⟩, {}, {}, {}],
        [⟨a, HFun.pure ca, v, 1, false, PState.fulfilled⟩,
         ⟨b, HFun.pure cb, v, 2, false, PState.fulfilled⟩,
         ⟨c, HFun.pure cc, v, 3, false, PState.fulfilled⟩], [], []⟩ : Machine)).log =
      [(a, v), (b, v), (c, v)] := by
    have hL : invokes (runAll 3 f
        (⟨[⟨PState.fulfilled, v, Value.undef, []⟩, {}, {}, {}],
          [⟨a, HFun.pure ca, v, 1, false, PState.fulfilled⟩,
           ⟨b, HFun.pure cb, v, 2, false, PState.fulfilled⟩,
           ⟨c, HFun.pure cc, v, 3, false, PState.fulfilled⟩], [], []⟩ : Machine)).log =
        invokes (runAll ([⟨a, HFun.pure ca, v, 1, false, PState.fulfilled⟩,
           ⟨b, HFun.pure cb, v, 2, false, PState.fulfilled⟩,
           ⟨c, HFun.pure cc, v, 3, false, PState.fulfilled⟩] : List Task).length f
        (⟨[⟨PState.fulfilled, v, Value.undef, []⟩, {}, {}, {}],
          [⟨a, HFun.pure ca, v, 1, false, PState.fulfilled⟩,
           ⟨b, HFun.pure cb, v, 2, false, PState.fulfilled⟩,
           ⟨c, HFun.pure cc, v, 3, false, PState.fulfilled⟩], [], []⟩ : Machine)).log := rfl
    rw [hL, hrf.2.2]
    rfl
  constructor
  · have hA1 : (thenAttach 10 (freshP emptyMachine).1 0
        (Handler.fn a (HFun.pure ca)) hrA false).1 =
        ⟨[⟨PState.pending, Value.undef, Value.undef,
            [⟨Handler.fn a (HFun.pure ca), hrA, 1, false⟩]⟩, {}], [], [], []⟩ := rfl
    have hA2 : (thenAttach 10
        (⟨[⟨PState.pending, Value.undef, Value.undef,
            [⟨Handler.fn a (HFun.pure ca), hrA, 1, false⟩]⟩, {}], [], [], []⟩ : Machine) 0
        (Handler.fn b (HFun.pure cb)) hrB false).1 =
        ⟨[⟨PState.pending, Value.undef, Value.undef,
            [⟨Handler.fn a (HFun.pure ca), hrA, 1, false⟩,
             ⟨Handler.fn b (HFun.pure cb), hrB, 2, false⟩]⟩, {}, {}], [], [], []⟩ := rfl
    have hA3 : (thenAttach 10
        (⟨[⟨PState.pending, Value.undef, Value.undef,
            [⟨Handler.fn a (HFun.pure ca), hrA, 1, false⟩,
             ⟨Handler.fn b (HFun.pure cb), hrB, 2, false⟩]⟩, {}, {}], [], [], []⟩ : Machine) 0
        (Handler.fn c (HFun.pure cc)) hrC false).1 =
        ⟨[⟨PState.pending, Value.undef, Value.undef,
            [⟨Handler.fn a (HFun.pure ca), hrA, 1, false⟩,
             ⟨Handler.fn b (HFun.pure cb), hrB, 2, false⟩,
             ⟨Handler.fn c (HFun.pure cc), hrC, 3, false⟩]⟩, {}, {}, {}], [], [], []⟩ := rfl
    have hA4 : changeState 10
        (⟨[⟨PState.pending, Value.undef, Value.undef,
            [⟨Handler.fn a (HFun.pure ca), hrA, 1, false⟩,
             ⟨Handler.fn b (HFun.pure cb), hrB, 2, false⟩,
             ⟨Handler.fn c (HFun.pure cc), hrC, 3, false⟩]⟩, {}, {}, {}], [], [], []⟩ : Machine)
        0 ⟨PState.fulfilled, v⟩ =
        ⟨[⟨PState.fulfilled, v, Value.undef, []⟩, {}, {}, {}],
         [⟨a, HFun.pure ca, v, 1, false, PState.fulfilled⟩,
          ⟨b, HFun.pure cb, v, 2, false, PState.fulfilled⟩,
          ⟨c, HFun.pure cc, v, 3, false, PState.fulfilled⟩], [], []⟩ := rfl
    simp only [orderingAttachFirst]
    rw [hA1, hA2, hA3, hA4]
    exact hfinal
  · have hB0 : changeState 10 (freshP emptyMachine).1 0 ⟨PState.fulfilled, v⟩ =
        ⟨[⟨PState.fulfilled, v, Value.undef, []⟩], [], [], []⟩ := rfl
    have hB1 : (thenAttach 10
        (⟨[⟨PState.fulfilled, v, Value.undef, []⟩], [], [], []⟩ : Machine) 0
        (Handler.fn a (HFun.pure ca)) hrA false).1 =
        ⟨[⟨PState.fulfilled, v, Value.undef, []⟩, {}],
         [⟨a, HFun.pure ca, v, 1, false, PState.fulfilled⟩], [], []⟩ := rfl
    have hB2 : (thenAttach 10
        (⟨[⟨PState.fulfilled, v, Value.undef, []⟩, {}],
          [⟨a, HFun.pure ca, v, 1, false, PState.fulfilled⟩], [], []⟩ : Machine) 0
        (Handler.fn b (HFun.pure cb)) hrB false).1 =
        ⟨[⟨PState.fulfilled, v, Value.undef, []⟩, {}, {}],
         [⟨a, HFun.pure ca, v, 1, false, PState.fulfilled⟩,
          ⟨b, HFun.pure cb, v, 2, false, PState.fulfilled⟩], [], []⟩ := rfl
    have hB3 : (thenAttach 10
        (⟨[⟨PState.fulfilled, v, Value.undef, []⟩, {}, {}],
          [⟨a, HFun.pure ca, v, 1, false, PState.fulfilled⟩,
           ⟨b, HFun.pure cb, v, 2, false, PState.fulfilled⟩], [], []⟩ : Machine) 0
        (Handler.fn c (HFun.pure cc)) hrC false).1 =
        ⟨[⟨PState.fulfilled, v, Value.undef, []⟩, {}, {}, {}],
         [⟨a, HFun.pure ca, v, 1, false, PState.fulfilled⟩,
          ⟨b, HFun.pure cb, v, 2, false, PState.fulfilled⟩,
          ⟨c, HFun.pure cc, v, 3, false, PState.fulfilled⟩], [], []⟩ := rfl
    simp only [orderingSettleFirst]
    rw [hB0, hB1, hB2, hB3]
    exact hfinal

end PromiseSpec